import Mathlib

/-! # Side-effect utilities of the MLIR transforms library

A shallow embedding of `mlir/lib/Transforms/Utils/SideEffectUtils.cpp`: the two
recursive predicates `isMemoryEffectFree` and `isSpeculatable` over an
operation tree, together with theorems about their verdicts.

The C++ functions query an operation through `dyn_cast` (interface lookup),
`hasTrait`, `getRegions` and `getOps`.  The operation type itself lives outside
the translated file, so it is modelled as a record holding the answer to each of
those queries.
-/

namespace mlir

namespace Speculation

/-- Modelled from the spec: the three-valued classification returned by
`ConditionallySpeculatable::getSpeculatability()`; the enum declaration is not
part of the translated file. -/
inductive Speculatability where
  | Speculatable
  | NotSpeculatable
  | RecursivelySpeculatable
  deriving DecidableEq, Repr

end Speculation

/-- Modelled from the spec: the operation node of the IR, whose declaration is
not part of the translated file.  Each field is the answer to one query the code
makes:

* `memInterface` is `dyn_cast<MemoryEffectOpInterface>(op)`: `none` when the
  operation does not expose the effect interface, `some b` when it does and
  `hasNoEffect()` returns `b`;
* `hasRecursiveMemoryEffects` is `op->hasTrait<OpTrait::HasRecursiveMemoryEffects>()`;
* `conditionallySpeculatable` is `dyn_cast<ConditionallySpeculatable>(op)`:
  `none` when the capability is absent, `some c` when `getSpeculatability()`
  returns `c`;
* `getRegions` is `op->getRegions()`, each region being given by the sequence
  `region.getOps()` of the operations it holds, in visitation order. -/
structure Operation where
  memInterface : Option Bool
  hasRecursiveMemoryEffects : Bool
  conditionallySpeculatable : Option Speculation.Speculatability
  getRegions : List (List Operation)

/-- A region, seen through `region.getOps()`. -/
abbrev Region := List Operation

/-! ## The two predicates, translated from the source -/

mutual
/-- Translation of `mlir::isMemoryEffectFree` (lines 15-36). -/
def isMemoryEffectFree : Operation → Bool
  | ⟨memInterface, hasRecursiveMemoryEffects, _, regions⟩ =>
    match memInterface with
    | some hasNoEffect =>
      -- If the op has side-effects, it cannot be moved.
      if !hasNoEffect then false
      -- If the op does not have recursive side effects, then it can be moved.
      else if !hasRecursiveMemoryEffects then true
      else isMemoryEffectFreeRegions regions
    | none =>
      if !hasRecursiveMemoryEffects then false
      else isMemoryEffectFreeRegions regions
/-- The outer loop `for (Region &region : op->getRegions())` of
`isMemoryEffectFree`: `false` as soon as the inner loop returns `false`. -/
def isMemoryEffectFreeRegions : List (List Operation) → Bool
  | [] => true
  | region :: rest =>
    if !isMemoryEffectFreeOps region then false
    else isMemoryEffectFreeRegions rest
/-- The inner loop `for (Operation &op : region.getOps())` of
`isMemoryEffectFree`: `false` at the first nested operation whose verdict is
`false`, `true` when the loop runs to its end. -/
def isMemoryEffectFreeOps : List Operation → Bool
  | [] => true
  | op :: rest =>
    if !isMemoryEffectFree op then false
    else isMemoryEffectFreeOps rest
end

mutual
/-- Translation of `mlir::isSpeculatable` (lines 38-58). -/
def isSpeculatable : Operation → Bool
  | ⟨_, _, conditionallySpeculatable, regions⟩ =>
    match conditionallySpeculatable with
    | none => false
    | some Speculation.Speculatability.RecursivelySpeculatable =>
      isSpeculatableRegions regions
    | some Speculation.Speculatability.Speculatable => true
    | some Speculation.Speculatability.NotSpeculatable => false
/-- The outer loop over `op->getRegions()` of the `RecursivelySpeculatable`
case. -/
def isSpeculatableRegions : List (List Operation) → Bool
  | [] => true
  | region :: rest =>
    if !isSpeculatableOps region then false
    else isSpeculatableRegions rest
/-- The inner loop over `region.getOps()` of the `RecursivelySpeculatable`
case. -/
def isSpeculatableOps : List Operation → Bool
  | [] => true
  | op :: rest =>
    if !isSpeculatable op then false
    else isSpeculatableOps rest
end

/-! ## Vocabulary of the specification -/

/-- An operation has a memory effect of its own when it exposes the effect
interface and `hasNoEffect()` is false. -/
def hasOwnMemoryEffect (op : Operation) : Bool :=
  match op.memInterface with
  | some hasNoEffect => !hasNoEffect
  | none => false

/-- The operations directly contained in the regions of `op`, in visitation
order. -/
def childOps (op : Operation) : List Operation :=
  op.getRegions.flatten

mutual
/-- The operations transitively nested inside `op`: every operation of every
region of `op`, each followed by the operations nested inside it. -/
def nestedOps : Operation → List Operation
  | ⟨_, _, _, regions⟩ => nestedOpsRegions regions
/-- The operations of a list of regions together with everything nested in
them. -/
def nestedOpsRegions : List (List Operation) → List Operation
  | [] => []
  | region :: rest => nestedOpsOps region ++ nestedOpsRegions rest
/-- The operations of one region together with everything nested in them. -/
def nestedOpsOps : List Operation → List Operation
  | [] => []
  | op :: rest => (op :: nestedOps op) ++ nestedOpsOps rest
end

mutual
/-- The operations reachable from `op` through a nesting path all of whose
proper ancestors (from `op` down to the parent of the operation reached)
satisfy `p`.  The operation `op` itself is not listed. -/
def nestedOpsThrough (p : Operation → Bool) : Operation → List Operation
  | ⟨m, t, s, regions⟩ =>
    if p ⟨m, t, s, regions⟩ then nestedOpsThroughRegions p regions else []
/-- The operations of a list of regions, each followed by what is reachable
from it through ancestors satisfying `p`. -/
def nestedOpsThroughRegions (p : Operation → Bool) : List (List Operation) → List Operation
  | [] => []
  | region :: rest => nestedOpsThroughOps p region ++ nestedOpsThroughRegions p rest
/-- The operations of one region, each followed by what is reachable from it
through ancestors satisfying `p`. -/
def nestedOpsThroughOps (p : Operation → Bool) : List Operation → List Operation
  | [] => []
  | op :: rest => (op :: nestedOpsThrough p op) ++ nestedOpsThroughOps p rest
end

/-- The classification of `op` is `RecursivelySpeculatable`. -/
def isRecursivelySpeculatable (op : Operation) : Bool :=
  op.conditionallySpeculatable = some Speculation.Speculatability.RecursivelySpeculatable

/-! ## Example operations -/

/-- A leaf with no capability and no trait. -/
def unknownOp : Operation := ⟨none, false, none, []⟩

/-- A leaf whose effect interface reports an effect and whose classification is
`NotSpeculatable` (a store, say). -/
def storeOp : Operation :=
  ⟨some false, false, some Speculation.Speculatability.NotSpeculatable, []⟩

/-- A leaf whose effect interface reports no effect and whose classification is
`Speculatable` (an addition, say). -/
def pureOp : Operation :=
  ⟨some true, false, some Speculation.Speculatability.Speculatable, []⟩

/-- An operation with one region holding `ops`, whose interface reports no
effect, which lacks the recursive trait and is classified `Speculatable`: its
own declaration is taken as the whole truth. -/
def sealedOp (ops : List Operation) : Operation :=
  ⟨some true, false, some Speculation.Speculatability.Speculatable, [ops]⟩

/-- An operation with one region holding `ops`, whose interface reports no
effect, which has the recursive trait and is classified
`RecursivelySpeculatable` (structured control flow, say). -/
def containerOp (ops : List Operation) : Operation :=
  ⟨some true, true, some Speculation.Speculatability.RecursivelySpeculatable, [ops]⟩

/-- An operation with one region holding `ops` that exposes no effect interface
but has the recursive trait, classified `RecursivelySpeculatable`. -/
def wrapperOp (ops : List Operation) : Operation :=
  ⟨none, true, some Speculation.Speculatability.RecursivelySpeculatable, [ops]⟩

/-! ## Vocabulary for the exact characterisations -/

/-- An operation is locally acceptable when it exposes the effect interface
with `hasNoEffect()` true, or exposes no effect interface but has the recursive
memory effects trait. -/
def locallyAcceptable (op : Operation) : Bool :=
  match op.memInterface with
  | some hasNoEffect => hasNoEffect
  | none => op.hasRecursiveMemoryEffects

/-- An operation declares itself speculatable when it exposes the
speculatability capability with a classification other than
`NotSpeculatable`. -/
def declaresSpeculatable (op : Operation) : Bool :=
  match op.conditionallySpeculatable with
  | some Speculation.Speculatability.NotSpeculatable => false
  | some _ => true
  | none => false

/-- Two operation trees that differ only by visitation order: `Reordered a b`
holds when `b` is obtained from `a` by permuting the regions of operations and
the operations inside regions, any number of times and at any depth. -/
inductive Reordered : Operation → Operation → Prop
  | same (op : Operation) : Reordered op op
  | step {a b c : Operation} : Reordered a b → Reordered b c → Reordered a c
  | regions (m : Option Bool) (t : Bool) (s : Option Speculation.Speculatability)
      {rs rs2 : List (List Operation)} :
      rs.Perm rs2 → Reordered ⟨m, t, s, rs⟩ ⟨m, t, s, rs2⟩
  | ops (m : Option Bool) (t : Bool) (s : Option Speculation.Speculatability)
      (before : List (List Operation)) {r r2 : List Operation}
      (after : List (List Operation)) :
      r.Perm r2 →
      Reordered ⟨m, t, s, before ++ r :: after⟩ ⟨m, t, s, before ++ r2 :: after⟩
  | nested (m : Option Bool) (t : Bool) (s : Option Speculation.Speculatability)
      (before : List (List Operation)) (left : List Operation) {c c2 : Operation}
      (right : List Operation) (after : List (List Operation)) :
      Reordered c c2 →
      Reordered ⟨m, t, s, before ++ (left ++ c :: right) :: after⟩
        ⟨m, t, s, before ++ (left ++ c2 :: right) :: after⟩

/-! ## Termination: fuel, nesting depth and recursive calls -/

mutual
/-- The nesting depth of an operation tree: `1` for an operation holding no
nested operation, one more than the deepest nested operation otherwise. -/
def nestingDepth : Operation → Nat
  | ⟨_, _, _, regions⟩ => nestingDepthRegions regions + 1
/-- The largest nesting depth among the operations of a list of regions. -/
def nestingDepthRegions : List (List Operation) → Nat
  | [] => 0
  | region :: rest => max (nestingDepthOps region) (nestingDepthRegions rest)
/-- The largest nesting depth among the operations of one region. -/
def nestingDepthOps : List Operation → Nat
  | [] => 0
  | op :: rest => max (nestingDepth op) (nestingDepthOps rest)
end

/-- The inner loop `for (Operation &op : region.getOps())` shared by both
predicates, over a callee that may fail to return (`none`): the first `false`
of the callee ends the loop with `false`. -/
def loopOps (callee : Operation → Option Bool) : List Operation → Option Bool
  | [] => some true
  | op :: rest =>
    match callee op with
    | none => none
    | some verdict => if !verdict then some false else loopOps callee rest

/-- The outer loop `for (Region &region : op->getRegions())` shared by both
predicates, over a callee that may fail to return. -/
def loopRegions (callee : Operation → Option Bool) : List (List Operation) → Option Bool
  | [] => some true
  | region :: rest =>
    match loopOps callee region with
    | none => none
    | some verdict => if !verdict then some false else loopRegions callee rest

/-- The function `mlir::isMemoryEffectFree` run with a bound on the depth of the
recursion: `none` when the bound is exhausted before the call returns. -/
def isMemoryEffectFreeFuel : Nat → Operation → Option Bool
  | 0, _ => none
  | fuel + 1, op =>
    match op.memInterface with
    | some hasNoEffect =>
      if !hasNoEffect then some false
      else if !op.hasRecursiveMemoryEffects then some true
      else loopRegions (isMemoryEffectFreeFuel fuel) op.getRegions
    | none =>
      if !op.hasRecursiveMemoryEffects then some false
      else loopRegions (isMemoryEffectFreeFuel fuel) op.getRegions

/-- The function `mlir::isSpeculatable` run with a bound on the depth of the
recursion: `none` when the bound is exhausted before the call returns. -/
def isSpeculatableFuel : Nat → Operation → Option Bool
  | 0, _ => none
  | fuel + 1, op =>
    match op.conditionallySpeculatable with
    | none => some false
    | some Speculation.Speculatability.RecursivelySpeculatable =>
      loopRegions (isSpeculatableFuel fuel) op.getRegions
    | some Speculation.Speculatability.Speculatable => some true
    | some Speculation.Speculatability.NotSpeculatable => some false

/-- The operations on which the inner loop calls `callee`, in order: the loop
stops after the first operation whose verdict is `false`. -/
def loopOpsCalls (callee : Operation → Bool) : List Operation → List Operation
  | [] => []
  | op :: rest => op :: (if !callee op then [] else loopOpsCalls callee rest)

/-- The operations on which the two nested loops call `callee`, in order: the
outer loop stops after the first region in which the inner loop met a `false`
verdict. -/
def loopRegionsCalls (callee : Operation → Bool) : List (List Operation) → List Operation
  | [] => []
  | region :: rest =>
    loopOpsCalls callee region ++
      (if !region.all callee then [] else loopRegionsCalls callee rest)

/-- The arguments of the recursive calls made by one invocation of
`isMemoryEffectFree` on `op` (lines 31-34), none when the function returns
before the loops. -/
def isMemoryEffectFreeCalls (op : Operation) : List Operation :=
  match op.memInterface with
  | some hasNoEffect =>
    if !hasNoEffect then []
    else if !op.hasRecursiveMemoryEffects then []
    else loopRegionsCalls isMemoryEffectFree op.getRegions
  | none =>
    if !op.hasRecursiveMemoryEffects then []
    else loopRegionsCalls isMemoryEffectFree op.getRegions

/-- The arguments of the recursive calls made by one invocation of
`isSpeculatable` on `op` (lines 45-48), none outside the
`RecursivelySpeculatable` case. -/
def isSpeculatableCalls (op : Operation) : List Operation :=
  match op.conditionallySpeculatable with
  | none => []
  | some Speculation.Speculatability.RecursivelySpeculatable =>
    loopRegionsCalls isSpeculatable op.getRegions
  | some Speculation.Speculatability.Speculatable => []
  | some Speculation.Speculatability.NotSpeculatable => []

/-! ## Structural facts -/

/-- Induction over the operation tree: a property holds of every operation as
soon as it holds of an operation whenever it holds of all operations directly
contained in its regions. -/
theorem Operation.nested_induction {P : Operation → Prop}
    (step : ∀ op : Operation,
      (∀ region ∈ op.getRegions, ∀ c ∈ region, P c) → P op) :
    ∀ op, P op := by
  intro op
  refine Operation.rec
    (motive_1 := P)
    (motive_2 := fun regions => ∀ region ∈ regions, ∀ c ∈ region, P c)
    (motive_3 := fun region => ∀ c ∈ region, P c)
    ?_ ?_ ?_ ?_ ?_ op
  · intro m t s regions ih
    exact step ⟨m, t, s, regions⟩ ih
  · intro region h
    cases h
  · intro head tail ihHead ihTail region h
    rcases List.mem_cons.mp h with rfl | h
    · exact ihHead
    · exact ihTail region h
  · intro c h
    cases h
  · intro head tail ihHead ihTail c h
    rcases List.mem_cons.mp h with rfl | h
    · exact ihHead
    · exact ihTail c h

theorem isMemoryEffectFreeOps_iff (region : List Operation) :
    isMemoryEffectFreeOps region = true ↔ ∀ c ∈ region, isMemoryEffectFree c = true := by
  induction region with
  | nil => simp [isMemoryEffectFreeOps]
  | cons op rest ih =>
    cases h : isMemoryEffectFree op <;> simp [isMemoryEffectFreeOps, h, ih]

theorem isMemoryEffectFreeRegions_iff (regions : List (List Operation)) :
    isMemoryEffectFreeRegions regions = true ↔
      ∀ region ∈ regions, ∀ c ∈ region, isMemoryEffectFree c = true := by
  induction regions with
  | nil => simp [isMemoryEffectFreeRegions]
  | cons region rest ih =>
    cases h : isMemoryEffectFreeOps region
    · have h2 : ¬ ∀ c ∈ region, isMemoryEffectFree c = true := by
        rw [← isMemoryEffectFreeOps_iff, h]; simp
      simp [isMemoryEffectFreeRegions, h, h2]
    · have h2 := (isMemoryEffectFreeOps_iff region).mp h
      simp only [isMemoryEffectFreeRegions, h, List.forall_mem_cons, Bool.not_true,
        Bool.false_eq_true, if_false]
      rw [ih]
      exact ⟨fun hr => ⟨h2, hr⟩, fun hr => hr.2⟩

theorem isSpeculatableOps_iff (region : List Operation) :
    isSpeculatableOps region = true ↔ ∀ c ∈ region, isSpeculatable c = true := by
  induction region with
  | nil => simp [isSpeculatableOps]
  | cons op rest ih =>
    cases h : isSpeculatable op <;> simp [isSpeculatableOps, h, ih]

theorem isSpeculatableRegions_iff (regions : List (List Operation)) :
    isSpeculatableRegions regions = true ↔
      ∀ region ∈ regions, ∀ c ∈ region, isSpeculatable c = true := by
  induction regions with
  | nil => simp [isSpeculatableRegions]
  | cons region rest ih =>
    cases h : isSpeculatableOps region
    · have h2 : ¬ ∀ c ∈ region, isSpeculatable c = true := by
        rw [← isSpeculatableOps_iff, h]; simp
      simp [isSpeculatableRegions, h, h2]
    · have h2 := (isSpeculatableOps_iff region).mp h
      simp only [isSpeculatableRegions, h, List.forall_mem_cons, Bool.not_true,
        Bool.false_eq_true, if_false]
      rw [ih]
      exact ⟨fun hr => ⟨h2, hr⟩, fun hr => hr.2⟩

/-- The verdict of `isMemoryEffectFree` when the loops are reached: the
operation has the recursive trait and its interface, if any, reports no
effect. -/
theorem isMemoryEffectFree_recursive (op : Operation)
    (ht : op.hasRecursiveMemoryEffects = true)
    (hi : op.memInterface = none ∨ op.memInterface = some true) :
    isMemoryEffectFree op = true ↔
      ∀ region ∈ op.getRegions, ∀ c ∈ region, isMemoryEffectFree c = true := by
  obtain ⟨m, t, s, regions⟩ := op
  simp only at ht hi
  subst ht
  rcases hi with rfl | rfl <;>
    simp [isMemoryEffectFree, isMemoryEffectFreeRegions_iff]

/-- The verdict of `isSpeculatable` in the `RecursivelySpeculatable` case. -/
theorem isSpeculatable_recursive (op : Operation)
    (hc : op.conditionallySpeculatable =
      some Speculation.Speculatability.RecursivelySpeculatable) :
    isSpeculatable op = true ↔
      ∀ region ∈ op.getRegions, ∀ c ∈ region, isSpeculatable c = true := by
  obtain ⟨m, t, s, regions⟩ := op
  simp only at hc
  subst hc
  simp [isSpeculatable, isSpeculatableRegions_iff]

theorem mem_nestedOpsOps (d : Operation) (region : List Operation) :
    d ∈ nestedOpsOps region ↔ ∃ c ∈ region, d = c ∨ d ∈ nestedOps c := by
  induction region with
  | nil => simp [nestedOpsOps]
  | cons op rest ih => simp [nestedOpsOps, ih, or_assoc]

theorem mem_nestedOpsRegions (d : Operation) (regions : List (List Operation)) :
    d ∈ nestedOpsRegions regions ↔
      ∃ region ∈ regions, ∃ c ∈ region, d = c ∨ d ∈ nestedOps c := by
  induction regions with
  | nil => simp [nestedOpsRegions]
  | cons region rest ih => simp [nestedOpsRegions, ih, mem_nestedOpsOps]

/-- An operation is transitively nested inside `op` exactly when it is directly
contained in a region of `op` or transitively nested inside an operation that
is. -/
theorem mem_nestedOps (d op : Operation) :
    d ∈ nestedOps op ↔
      ∃ region ∈ op.getRegions, ∃ c ∈ region, d = c ∨ d ∈ nestedOps c := by
  obtain ⟨m, t, s, regions⟩ := op
  simp [nestedOps, mem_nestedOpsRegions]

theorem mem_nestedOpsThroughOps (p : Operation → Bool) (d : Operation)
    (region : List Operation) :
    d ∈ nestedOpsThroughOps p region ↔
      ∃ c ∈ region, d = c ∨ d ∈ nestedOpsThrough p c := by
  induction region with
  | nil => simp [nestedOpsThroughOps]
  | cons op rest ih => simp [nestedOpsThroughOps, ih, or_assoc]

theorem mem_nestedOpsThroughRegions (p : Operation → Bool) (d : Operation)
    (regions : List (List Operation)) :
    d ∈ nestedOpsThroughRegions p regions ↔
      ∃ region ∈ regions, ∃ c ∈ region, d = c ∨ d ∈ nestedOpsThrough p c := by
  induction regions with
  | nil => simp [nestedOpsThroughRegions]
  | cons region rest ih =>
    simp [nestedOpsThroughRegions, ih, mem_nestedOpsThroughOps]

/-- An operation is reachable from `op` through ancestors satisfying `p`
exactly when `op` satisfies `p` and the operation is directly contained in a
region of `op` or reachable in the same way from an operation that is. -/
theorem mem_nestedOpsThrough (p : Operation → Bool) (d op : Operation) :
    d ∈ nestedOpsThrough p op ↔
      p op = true ∧
        ∃ region ∈ op.getRegions, ∃ c ∈ region, d = c ∨ d ∈ nestedOpsThrough p c := by
  obtain ⟨m, t, s, regions⟩ := op
  by_cases hp : p ⟨m, t, s, regions⟩ = true
  · simp [nestedOpsThrough, hp, mem_nestedOpsThroughRegions]
  · simp [nestedOpsThrough, hp]

/-- The body of `isMemoryEffectFree`, stated on the fields of the operation. -/
theorem isMemoryEffectFree_eq (op : Operation) :
    isMemoryEffectFree op =
      match op.memInterface with
      | some hasNoEffect =>
        if !hasNoEffect then false
        else if !op.hasRecursiveMemoryEffects then true
        else isMemoryEffectFreeRegions op.getRegions
      | none =>
        if !op.hasRecursiveMemoryEffects then false
        else isMemoryEffectFreeRegions op.getRegions := by
  obtain ⟨m, t, s, regions⟩ := op
  cases m <;> rfl

/-- The body of `isSpeculatable`, stated on the fields of the operation. -/
theorem isSpeculatable_eq (op : Operation) :
    isSpeculatable op =
      match op.conditionallySpeculatable with
      | none => false
      | some Speculation.Speculatability.RecursivelySpeculatable =>
        isSpeculatableRegions op.getRegions
      | some Speculation.Speculatability.Speculatable => true
      | some Speculation.Speculatability.NotSpeculatable => false := by
  obtain ⟨m, t, s, regions⟩ := op
  rcases s with _ | c
  · rfl
  · cases c <;> rfl

/-- A positive verdict of `isMemoryEffectFree` passes to every operation reached
through ancestors that all have the recursive trait. -/
theorem isMemoryEffectFree_of_through :
    ∀ op : Operation, isMemoryEffectFree op = true →
      ∀ d ∈ nestedOpsThrough (fun o => o.hasRecursiveMemoryEffects) op,
        isMemoryEffectFree d = true := by
  refine Operation.nested_induction ?_
  intro op ih hop d hd
  rw [mem_nestedOpsThrough] at hd
  obtain ⟨ht, region, hregion, c, hc, hdc⟩ := hd
  have hi : op.memInterface = none ∨ op.memInterface = some true := by
    rcases hm : op.memInterface with _ | b
    · exact Or.inl rfl
    · cases b
      · rw [isMemoryEffectFree_eq, hm] at hop
        simp at hop
      · exact Or.inr rfl
  have hall := (isMemoryEffectFree_recursive op ht hi).mp hop
  rcases hdc with rfl | hdc
  · exact hall region hregion d hc
  · exact ih region hregion c hc (hall region hregion c hc) d hdc

/-- A positive verdict of `isSpeculatable` passes to every operation reached
through ancestors that are all classified `RecursivelySpeculatable`. -/
theorem isSpeculatable_of_through :
    ∀ op : Operation, isSpeculatable op = true →
      ∀ d ∈ nestedOpsThrough isRecursivelySpeculatable op,
        isSpeculatable d = true := by
  refine Operation.nested_induction ?_
  intro op ih hop d hd
  rw [mem_nestedOpsThrough] at hd
  obtain ⟨hr, region, hregion, c, hc, hdc⟩ := hd
  have hcls : op.conditionallySpeculatable =
      some Speculation.Speculatability.RecursivelySpeculatable := by
    simpa [isRecursivelySpeculatable] using hr
  have hall := (isSpeculatable_recursive op hcls).mp hop
  rcases hdc with rfl | hdc
  · exact hall region hregion d hc
  · exact ih region hregion c hc (hall region hregion c hc) d hdc

/-! ## Verdicts of `isMemoryEffectFree` -/

/-- C1, as stated, fails in both directions.  The leaf `unknownOp`, which declares nothing, has no
memory effect of its own and nothing nested, yet its verdict is `false`; the
operation `sealedOp [storeOp]` holds a nested operation with an effect of its
own, yet its verdict is `true`. -/
theorem isMemoryEffectFree_iff_noOwnEffect_counterexample :
    ¬ (isMemoryEffectFree unknownOp = true ↔
        ∀ d ∈ unknownOp :: nestedOps unknownOp, hasOwnMemoryEffect d = false) ∧
    ¬ (isMemoryEffectFree (sealedOp [storeOp]) = true ↔
        ∀ d ∈ sealedOp [storeOp] :: nestedOps (sealedOp [storeOp]),
          hasOwnMemoryEffect d = false) := by
  constructor
  · intro h
    have h1 : isMemoryEffectFree unknownOp = true :=
      h.mpr (by
        intro d hd
        have hd2 : d ∈ [unknownOp] := hd
        rw [List.mem_singleton] at hd2
        subst hd2
        rfl)
    exact absurd h1 (by decide)
  · intro h
    have h1 := h.mp (by decide) storeOp
      (List.mem_cons_of_mem _ (show storeOp ∈ [storeOp] from List.mem_singleton.mpr rfl))
    exact absurd h1 (by decide)

/-- C1 (amended): on a tree in which every operation either has the recursive
memory effects trait, or exposes the effect interface and holds no nested
operation, `isMemoryEffectFree op` is `true` if and only if neither `op` nor any
operation transitively nested inside it has a memory effect of its own. -/
theorem isMemoryEffectFree_iff_noOwnEffect :
    ∀ op : Operation,
      (∀ d ∈ op :: nestedOps op,
        d.hasRecursiveMemoryEffects = true ∨
          (d.memInterface.isSome = true ∧ (childOps d).isEmpty = true)) →
      (isMemoryEffectFree op = true ↔
        ∀ d ∈ op :: nestedOps op, hasOwnMemoryEffect d = false) := by
  refine Operation.nested_induction ?_
  intro op ih hyp
  have hsub : ∀ region ∈ op.getRegions, ∀ c ∈ region,
      ∀ d ∈ c :: nestedOps c, d ∈ nestedOps op := by
    intro region hregion c hc d hd
    rw [mem_nestedOps]
    exact ⟨region, hregion, c, hc, by simpa using hd⟩
  have hchild : ∀ region ∈ op.getRegions, ∀ c ∈ region,
      (isMemoryEffectFree c = true ↔
        ∀ d ∈ c :: nestedOps c, hasOwnMemoryEffect d = false) := by
    intro region hregion c hc
    refine ih region hregion c hc ?_
    intro d hd
    exact hyp d (List.mem_cons_of_mem _ (hsub region hregion c hc d hd))
  have hnested : (∀ d ∈ nestedOps op, hasOwnMemoryEffect d = false) ↔
      ∀ region ∈ op.getRegions, ∀ c ∈ region, isMemoryEffectFree c = true := by
    constructor
    · intro h region hregion c hc
      rw [hchild region hregion c hc]
      intro d hd
      exact h d (hsub region hregion c hc d hd)
    · intro h d hd
      rw [mem_nestedOps] at hd
      obtain ⟨region, hregion, c, hc, hdc⟩ := hd
      exact (hchild region hregion c hc).mp (h region hregion c hc) d (by simpa using hdc)
  rw [List.forall_mem_cons, hnested]
  cases ht : op.hasRecursiveMemoryEffects
  · -- no recursive trait: the interface is present and nothing is nested
    have hop := hyp op (List.mem_cons_self _ _)
    rw [ht] at hop
    obtain ⟨hsome, hempty⟩ := hop.resolve_left (by simp)
    have hnone : ∀ region ∈ op.getRegions, ∀ c ∈ region, isMemoryEffectFree c = true := by
      intro region hregion c hc
      have hmem : c ∈ childOps op := List.mem_flatten.mpr ⟨region, hregion, hc⟩
      rw [List.isEmpty_iff.mp hempty] at hmem
      cases hmem
    rw [isMemoryEffectFree_eq]
    rcases hm : op.memInterface with _ | b
    · rw [hm] at hsome
      simp at hsome
    · cases b
      · simp [hasOwnMemoryEffect, hm]
      · simp only [hasOwnMemoryEffect, hm, ht]
        simpa using hnone
  · rcases hm : op.memInterface with _ | b
    · rw [isMemoryEffectFree_recursive op ht (Or.inl hm)]
      simp [hasOwnMemoryEffect, hm]
    · cases b
      · rw [isMemoryEffectFree_eq]
        simp [hasOwnMemoryEffect, hm]
      · rw [isMemoryEffectFree_recursive op ht (Or.inr hm)]
        simp [hasOwnMemoryEffect, hm]

/-- Witness of `isMemoryEffectFree_iff_noOwnEffect` on a container with the
recursive trait holding a pure leaf and a wrapper around a store. -/
theorem isMemoryEffectFree_iff_noOwnEffect_witness :
    (∀ d ∈ containerOp [pureOp, wrapperOp [storeOp]] ::
        nestedOps (containerOp [pureOp, wrapperOp [storeOp]]),
      d.hasRecursiveMemoryEffects = true ∨
        (d.memInterface.isSome = true ∧ (childOps d).isEmpty = true)) ∧
    (isMemoryEffectFree (containerOp [pureOp, wrapperOp [storeOp]]) = true ↔
      ∀ d ∈ containerOp [pureOp, wrapperOp [storeOp]] ::
          nestedOps (containerOp [pureOp, wrapperOp [storeOp]]),
        hasOwnMemoryEffect d = false) :=
  ⟨by decide,
   isMemoryEffectFree_iff_noOwnEffect (containerOp [pureOp, wrapperOp [storeOp]]) (by decide)⟩

/-- C2, as stated, fails for both predicates: `sealedOp [storeOp]` has a positive
verdict under `isMemoryEffectFree` and under `isSpeculatable`, while the
operation `storeOp` nested inside it has a negative verdict under both. -/
theorem verdict_of_descendants_counterexample :
    ¬ (isMemoryEffectFree (sealedOp [storeOp]) = true →
        ∀ d ∈ nestedOps (sealedOp [storeOp]), isMemoryEffectFree d = true) ∧
    ¬ (isSpeculatable (sealedOp [storeOp]) = true →
        ∀ d ∈ nestedOps (sealedOp [storeOp]), isSpeculatable d = true) := by
  have hmem : storeOp ∈ nestedOps (sealedOp [storeOp]) :=
    show storeOp ∈ [storeOp] from List.mem_singleton.mpr rfl
  constructor
  · intro h
    exact absurd (h (by decide) storeOp hmem) (by decide)
  · intro h
    exact absurd (h (by decide) storeOp hmem) (by decide)

/-- C2 (amended): a positive verdict passes to the descendants that the
recursion reaches.  If `isMemoryEffectFree op` is `true`, so is
`isMemoryEffectFree d` for every `d` reachable from `op` through a nesting path
whose proper ancestors of `d` all have the recursive memory effects trait; if
`isSpeculatable op` is `true`, so is `isSpeculatable d` for every `d` reachable
from `op` through a nesting path whose proper ancestors of `d` are all
classified `RecursivelySpeculatable`. -/
theorem verdict_of_reached_descendants (op : Operation) :
    (isMemoryEffectFree op = true →
      ∀ d ∈ nestedOpsThrough (fun o => o.hasRecursiveMemoryEffects) op,
        isMemoryEffectFree d = true) ∧
    (isSpeculatable op = true →
      ∀ d ∈ nestedOpsThrough isRecursivelySpeculatable op,
        isSpeculatable d = true) :=
  ⟨isMemoryEffectFree_of_through op, isSpeculatable_of_through op⟩

/-- Witness of `verdict_of_reached_descendants`: in a container holding a wrapper
around a pure leaf, the leaf is reached under both predicates and inherits both
verdicts. -/
theorem verdict_of_reached_descendants_witness :
    isMemoryEffectFree (containerOp [wrapperOp [pureOp]]) = true ∧
    isSpeculatable (containerOp [wrapperOp [pureOp]]) = true ∧
    isMemoryEffectFree pureOp = true ∧ isSpeculatable pureOp = true :=
  ⟨by decide, by decide,
   (verdict_of_reached_descendants (containerOp [wrapperOp [pureOp]])).1 (by decide) pureOp
     (show pureOp ∈ [wrapperOp [pureOp], pureOp] from
       List.mem_cons_of_mem _ (List.mem_singleton.mpr rfl)),
   (verdict_of_reached_descendants (containerOp [wrapperOp [pureOp]])).2 (by decide) pureOp
     (show pureOp ∈ [wrapperOp [pureOp], pureOp] from
       List.mem_cons_of_mem _ (List.mem_singleton.mpr rfl))⟩

/-- C3: an operation that exposes the effect interface with `hasNoEffect()` true
and lacks the recursive memory effects trait is memory-effect-free, whatever
its regions contain. -/
theorem isMemoryEffectFree_noEffect_nonRecursive (op : Operation)
    (hi : op.memInterface = some true)
    (ht : op.hasRecursiveMemoryEffects = false) :
    isMemoryEffectFree op = true := by
  rw [isMemoryEffectFree_eq, hi, ht]
  rfl

/-- Witness of `isMemoryEffectFree_noEffect_nonRecursive`: the verdict is `true`
although the region holds `storeOp`, whose own verdict is `false`. -/
theorem isMemoryEffectFree_noEffect_nonRecursive_witness :
    isMemoryEffectFree storeOp = false ∧
    isMemoryEffectFree (sealedOp [pureOp, storeOp]) = true :=
  ⟨by decide, isMemoryEffectFree_noEffect_nonRecursive (sealedOp [pureOp, storeOp]) rfl rfl⟩

/-- C4: an operation whose effect interface is present and reports an effect
(`hasNoEffect()` false) is not memory-effect-free, whatever its trait and its
regions. -/
theorem isMemoryEffectFree_effect (op : Operation)
    (hi : op.memInterface = some false) :
    isMemoryEffectFree op = false := by
  rw [isMemoryEffectFree_eq, hi]
  rfl

/-- Witness of `isMemoryEffectFree_effect`: an operation with the recursive
trait whose only nested operation is memory-effect-free, but whose own
interface reports an effect. -/
theorem isMemoryEffectFree_effect_witness :
    isMemoryEffectFree pureOp = true ∧
    isMemoryEffectFree (Operation.mk (some false) true none [[pureOp]]) = false :=
  ⟨by decide, isMemoryEffectFree_effect (Operation.mk (some false) true none [[pureOp]]) rfl⟩

/-- C5: an operation that exposes no effect interface and lacks the recursive
memory effects trait is not memory-effect-free, whatever its regions. -/
theorem isMemoryEffectFree_noInterface_nonRecursive (op : Operation)
    (hi : op.memInterface = none)
    (ht : op.hasRecursiveMemoryEffects = false) :
    isMemoryEffectFree op = false := by
  rw [isMemoryEffectFree_eq, hi, ht]
  rfl

/-- Witness of `isMemoryEffectFree_noInterface_nonRecursive`: an operation declaring nothing whose region
holds only a memory-effect-free operation. -/
theorem isMemoryEffectFree_noInterface_nonRecursive_witness :
    isMemoryEffectFree pureOp = true ∧
    isMemoryEffectFree (Operation.mk none false none [[pureOp]]) = false :=
  ⟨by decide, isMemoryEffectFree_noInterface_nonRecursive (Operation.mk none false none [[pureOp]]) rfl rfl⟩

/-- C6: for an operation that has the recursive memory effects trait and either
exposes no effect interface or exposes one with `hasNoEffect()` true, the
verdict is the conjunction of the verdicts of the operations directly contained
in its regions. -/
theorem isMemoryEffectFree_recursive_children (op : Operation)
    (ht : op.hasRecursiveMemoryEffects = true)
    (hi : op.memInterface = none ∨ op.memInterface = some true) :
    isMemoryEffectFree op =
      op.getRegions.all (fun region => region.all (fun c => isMemoryEffectFree c)) := by
  rw [Bool.eq_iff_iff, isMemoryEffectFree_recursive op ht hi]
  simp [List.all_eq_true]

/-- Witness of `isMemoryEffectFree_recursive_children`: a container whose region
holds a pure leaf followed by a store; the store makes the verdict `false`. -/
theorem isMemoryEffectFree_recursive_children_witness :
    isMemoryEffectFree (containerOp [pureOp, storeOp]) =
      (containerOp [pureOp, storeOp]).getRegions.all
        (fun region => region.all (fun c => isMemoryEffectFree c)) ∧
    isMemoryEffectFree (containerOp [pureOp, storeOp]) = false :=
  ⟨isMemoryEffectFree_recursive_children (containerOp [pureOp, storeOp]) rfl (Or.inr rfl),
   by decide⟩

/-- C7, as stated, fails: the container `containerOp [sealedOp [storeOp]]`
exposes the interface with no effect and has the recursive trait, its verdict
is `true`, yet `storeOp`, nested two levels down, has verdict `false`. -/
theorem isMemoryEffectFree_all_descendants_counterexample :
    (containerOp [sealedOp [storeOp]]).memInterface = some true ∧
    (containerOp [sealedOp [storeOp]]).hasRecursiveMemoryEffects = true ∧
    ¬ (isMemoryEffectFree (containerOp [sealedOp [storeOp]]) = true ↔
        ∀ d ∈ nestedOps (containerOp [sealedOp [storeOp]]),
          isMemoryEffectFree d = true) := by
  refine ⟨rfl, rfl, ?_⟩
  intro h
  have hmem : storeOp ∈ nestedOps (containerOp [sealedOp [storeOp]]) :=
    show storeOp ∈ [sealedOp [storeOp], storeOp] from
      List.mem_cons_of_mem _ (List.mem_singleton.mpr rfl)
  exact absurd (h.mp (by decide) storeOp hmem) (by decide)

/-- C7 (amended): for an operation that exposes the effect interface with
`hasNoEffect()` true and has the recursive memory effects trait, the verdict is
`true` exactly when `isMemoryEffectFree d` is `true` for every operation `d`
reachable from it through a nesting path whose proper ancestors of `d` all have
the recursive memory effects trait. -/
theorem isMemoryEffectFree_reached_descendants (op : Operation)
    (hi : op.memInterface = some true)
    (ht : op.hasRecursiveMemoryEffects = true) :
    isMemoryEffectFree op = true ↔
      ∀ d ∈ nestedOpsThrough (fun o => o.hasRecursiveMemoryEffects) op,
        isMemoryEffectFree d = true := by
  constructor
  · exact isMemoryEffectFree_of_through op
  · intro h
    rw [isMemoryEffectFree_recursive op ht (Or.inr hi)]
    intro region hregion c hc
    apply h c
    rw [mem_nestedOpsThrough]
    exact ⟨ht, region, hregion, c, hc, Or.inl rfl⟩

/-- Witness of `isMemoryEffectFree_reached_descendants` on the container of the
counterexample: only `sealedOp [storeOp]` is reached, and the verdict is
`true`. -/
theorem isMemoryEffectFree_reached_descendants_witness :
    nestedOpsThrough (fun o => o.hasRecursiveMemoryEffects)
        (containerOp [sealedOp [storeOp]]) = [sealedOp [storeOp]] ∧
    (isMemoryEffectFree (containerOp [sealedOp [storeOp]]) = true ↔
      ∀ d ∈ nestedOpsThrough (fun o => o.hasRecursiveMemoryEffects)
          (containerOp [sealedOp [storeOp]]),
        isMemoryEffectFree d = true) :=
  ⟨rfl, isMemoryEffectFree_reached_descendants (containerOp [sealedOp [storeOp]]) rfl rfl⟩

/-! ## Verdicts of `isSpeculatable` -/

/-- C8: an operation classified `Speculatable` is speculatable, whatever its
regions contain. -/
theorem isSpeculatable_speculatable (op : Operation)
    (hc : op.conditionallySpeculatable = some Speculation.Speculatability.Speculatable) :
    isSpeculatable op = true := by
  rw [isSpeculatable_eq, hc]

/-- Witness of `isSpeculatable_speculatable`: the verdict is `true` although the
region holds `storeOp`, which is not speculatable. -/
theorem isSpeculatable_speculatable_witness :
    isSpeculatable storeOp = false ∧ isSpeculatable (sealedOp [storeOp]) = true :=
  ⟨by decide, isSpeculatable_speculatable (sealedOp [storeOp]) rfl⟩

/-- C9: an operation that does not expose the speculatability capability is not
speculatable, whatever its regions, traits and effect interface. -/
theorem isSpeculatable_absent (op : Operation)
    (hc : op.conditionallySpeculatable = none) :
    isSpeculatable op = false := by
  rw [isSpeculatable_eq, hc]

/-- Witness of `isSpeculatable_absent`: an operation without the capability,
with the recursive trait and a no-effect interface, holding a speculatable
operation. -/
theorem isSpeculatable_absent_witness :
    isSpeculatable pureOp = true ∧
    isSpeculatable (Operation.mk (some true) true none [[pureOp]]) = false :=
  ⟨by decide, isSpeculatable_absent (Operation.mk (some true) true none [[pureOp]]) rfl⟩

/-- C10: an operation classified `NotSpeculatable` is not speculatable, whatever
its regions contain. -/
theorem isSpeculatable_notSpeculatable (op : Operation)
    (hc : op.conditionallySpeculatable =
      some Speculation.Speculatability.NotSpeculatable) :
    isSpeculatable op = false := by
  rw [isSpeculatable_eq, hc]

/-- Witness of `isSpeculatable_notSpeculatable`: an operation classified
`NotSpeculatable` whose region holds only speculatable operations. -/
theorem isSpeculatable_notSpeculatable_witness :
    isSpeculatable pureOp = true ∧
    isSpeculatable
      (Operation.mk (some true) true
        (some Speculation.Speculatability.NotSpeculatable) [[pureOp, pureOp]]) = false :=
  ⟨by decide,
   isSpeculatable_notSpeculatable
     (Operation.mk (some true) true
       (some Speculation.Speculatability.NotSpeculatable) [[pureOp, pureOp]]) rfl⟩

/-- C11: for an operation classified `RecursivelySpeculatable`, the verdict of
`isSpeculatable` is the conjunction of the verdicts of the operations directly
contained in its regions. -/
theorem isSpeculatable_recursive_children (op : Operation)
    (hc : op.conditionallySpeculatable =
      some Speculation.Speculatability.RecursivelySpeculatable) :
    isSpeculatable op =
      op.getRegions.all (fun region => region.all (fun c => isSpeculatable c)) := by
  rw [Bool.eq_iff_iff, isSpeculatable_recursive op hc]
  simp [List.all_eq_true]

/-- Witness of `isSpeculatable_recursive_children`: a `RecursivelySpeculatable`
container holding two operations both classified `Speculatable` is
speculatable. -/
theorem isSpeculatable_recursive_children_witness :
    isSpeculatable (containerOp [pureOp, pureOp]) =
      (containerOp [pureOp, pureOp]).getRegions.all
        (fun region => region.all (fun c => isSpeculatable c)) ∧
    isSpeculatable (containerOp [pureOp, pureOp]) = true :=
  ⟨isSpeculatable_recursive_children (containerOp [pureOp, pureOp]) rfl, by decide⟩

/-- C12, as stated, fails: the container `containerOp [sealedOp [storeOp]]` is
classified `RecursivelySpeculatable` and is speculatable, yet `storeOp`, nested
two levels down, is not. -/
theorem isSpeculatable_all_descendants_counterexample :
    (containerOp [sealedOp [storeOp]]).conditionallySpeculatable =
      some Speculation.Speculatability.RecursivelySpeculatable ∧
    ¬ (isSpeculatable (containerOp [sealedOp [storeOp]]) = true ↔
        ∀ d ∈ nestedOps (containerOp [sealedOp [storeOp]]),
          isSpeculatable d = true) := by
  refine ⟨rfl, ?_⟩
  intro h
  have hmem : storeOp ∈ nestedOps (containerOp [sealedOp [storeOp]]) :=
    show storeOp ∈ [sealedOp [storeOp], storeOp] from
      List.mem_cons_of_mem _ (List.mem_singleton.mpr rfl)
  exact absurd (h.mp (by decide) storeOp hmem) (by decide)

/-- C12 (amended): for an operation classified `RecursivelySpeculatable`, the
verdict is `true` exactly when `isSpeculatable d` is `true` for every operation
`d` reachable from it through a nesting path whose proper ancestors of `d` are
all classified `RecursivelySpeculatable`. -/
theorem isSpeculatable_reached_descendants (op : Operation)
    (hc : op.conditionallySpeculatable =
      some Speculation.Speculatability.RecursivelySpeculatable) :
    isSpeculatable op = true ↔
      ∀ d ∈ nestedOpsThrough isRecursivelySpeculatable op,
        isSpeculatable d = true := by
  constructor
  · exact isSpeculatable_of_through op
  · intro h
    rw [isSpeculatable_recursive op hc]
    intro region hregion c hc2
    apply h c
    rw [mem_nestedOpsThrough]
    exact ⟨by simp [isRecursivelySpeculatable, hc], region, hregion, c, hc2, Or.inl rfl⟩

/-- Witness of `isSpeculatable_reached_descendants` on the container of the
counterexample: only `sealedOp [storeOp]` is reached, and the verdict is
`true`. -/
theorem isSpeculatable_reached_descendants_witness :
    nestedOpsThrough isRecursivelySpeculatable
        (containerOp [sealedOp [storeOp]]) = [sealedOp [storeOp]] ∧
    (isSpeculatable (containerOp [sealedOp [storeOp]]) = true ↔
      ∀ d ∈ nestedOpsThrough isRecursivelySpeculatable
          (containerOp [sealedOp [storeOp]]),
        isSpeculatable d = true) :=
  ⟨rfl, isSpeculatable_reached_descendants (containerOp [sealedOp [storeOp]]) rfl⟩

/-- C13: an operation classified `RecursivelySpeculatable` that has no regions,
or whose regions all hold no operation, is speculatable. -/
theorem isSpeculatable_recursive_empty (op : Operation)
    (hc : op.conditionallySpeculatable =
      some Speculation.Speculatability.RecursivelySpeculatable)
    (hempty : ∀ region ∈ op.getRegions, region = []) :
    isSpeculatable op = true := by
  rw [isSpeculatable_recursive op hc]
  intro region hregion c hmem
  rw [hempty region hregion] at hmem
  cases hmem

/-- Witness of `isSpeculatable_recursive_empty`: one operation with no region
and one with two empty regions. -/
theorem isSpeculatable_recursive_empty_witness :
    isSpeculatable
      (Operation.mk none false
        (some Speculation.Speculatability.RecursivelySpeculatable) []) = true ∧
    isSpeculatable
      (Operation.mk none false
        (some Speculation.Speculatability.RecursivelySpeculatable) [[], []]) = true :=
  ⟨isSpeculatable_recursive_empty
     (Operation.mk none false
       (some Speculation.Speculatability.RecursivelySpeculatable) []) rfl
     (by intro region hregion; cases hregion),
   isSpeculatable_recursive_empty
     (Operation.mk none false
       (some Speculation.Speculatability.RecursivelySpeculatable) [[], []]) rfl
     (by
       intro region hregion
       simp only [List.mem_cons, List.mem_singleton] at hregion
       rcases hregion with h | h | h
       · exact h
       · exact h
       · cases h)⟩

/-! ## Termination -/

theorem isMemoryEffectFreeRegions_eq_all (regions : List (List Operation)) :
    isMemoryEffectFreeRegions regions =
      regions.all (fun region => region.all (fun c => isMemoryEffectFree c)) := by
  rw [Bool.eq_iff_iff, isMemoryEffectFreeRegions_iff]
  simp [List.all_eq_true]

theorem isSpeculatableRegions_eq_all (regions : List (List Operation)) :
    isSpeculatableRegions regions =
      regions.all (fun region => region.all (fun c => isSpeculatable c)) := by
  rw [Bool.eq_iff_iff, isSpeculatableRegions_iff]
  simp [List.all_eq_true]

/-- The inner loop returns as soon as the callee returns on every operation of
the region. -/
theorem loopOps_eq (callee : Operation → Option Bool) (f : Operation → Bool)
    (region : List Operation) (h : ∀ c ∈ region, callee c = some (f c)) :
    loopOps callee region = some (region.all f) := by
  induction region with
  | nil => rfl
  | cons op rest ih =>
    have hop := h op (List.mem_cons_self _ _)
    have hrest := ih (fun c hc => h c (List.mem_cons_of_mem _ hc))
    cases hf : f op <;> simp [loopOps, hop, hf, hrest]

/-- The outer loop returns as soon as the callee returns on every operation of
every region. -/
theorem loopRegions_eq (callee : Operation → Option Bool) (f : Operation → Bool)
    (regions : List (List Operation))
    (h : ∀ region ∈ regions, ∀ c ∈ region, callee c = some (f c)) :
    loopRegions callee regions = some (regions.all (fun region => region.all f)) := by
  induction regions with
  | nil => rfl
  | cons region rest ih =>
    have hregion := loopOps_eq callee f region (h region (List.mem_cons_self _ _))
    have hrest := ih (fun r hr => h r (List.mem_cons_of_mem _ hr))
    cases hf : region.all f
    · rw [hf] at hregion
      simp [loopRegions, hregion, hf]
    · rw [hf] at hregion
      simp [loopRegions, hregion, hf, hrest]

theorem nestingDepth_le_ops (c : Operation) (region : List Operation) (hc : c ∈ region) :
    nestingDepth c ≤ nestingDepthOps region := by
  induction region with
  | nil => cases hc
  | cons op rest ih =>
    rcases List.mem_cons.mp hc with rfl | hc
    · exact le_max_left _ _
    · exact le_trans (ih hc) (le_max_right _ _)

theorem nestingDepthOps_le_regions (region : List Operation)
    (regions : List (List Operation)) (hr : region ∈ regions) :
    nestingDepthOps region ≤ nestingDepthRegions regions := by
  induction regions with
  | nil => cases hr
  | cons head rest ih =>
    rcases List.mem_cons.mp hr with rfl | hr
    · exact le_max_left _ _
    · exact le_trans (ih hr) (le_max_right _ _)

/-- An operation directly contained in a region of `op` is strictly less deep
than `op`. -/
theorem nestingDepth_lt_of_child (op : Operation) (region : List Operation)
    (hr : region ∈ op.getRegions) (c : Operation) (hc : c ∈ region) :
    nestingDepth c < nestingDepth op := by
  obtain ⟨m, t, s, regions⟩ := op
  have h1 := nestingDepth_le_ops c region hc
  have h2 := nestingDepthOps_le_regions region regions hr
  show nestingDepth c < nestingDepthRegions regions + 1
  omega

/-- With fuel at least the nesting depth, the bounded `isMemoryEffectFree`
returns, and returns the verdict of `isMemoryEffectFree`. -/
theorem isMemoryEffectFreeFuel_eq :
    ∀ op : Operation, ∀ fuel : Nat, nestingDepth op ≤ fuel →
      isMemoryEffectFreeFuel fuel op = some (isMemoryEffectFree op) := by
  refine Operation.nested_induction ?_
  intro op ih fuel hfuel
  cases fuel with
  | zero =>
    obtain ⟨m, t, s, regions⟩ := op
    have : nestingDepthRegions regions + 1 ≤ 0 := hfuel
    omega
  | succ n =>
    have hloop : loopRegions (isMemoryEffectFreeFuel n) op.getRegions =
        some (isMemoryEffectFreeRegions op.getRegions) := by
      rw [isMemoryEffectFreeRegions_eq_all]
      apply loopRegions_eq
      intro region hregion c hc
      apply ih region hregion c hc
      have := nestingDepth_lt_of_child op region hregion c hc
      omega
    rw [isMemoryEffectFree_eq, isMemoryEffectFreeFuel, hloop]
    rcases op.memInterface with _ | b
    · cases op.hasRecursiveMemoryEffects <;> rfl
    · cases b <;> cases op.hasRecursiveMemoryEffects <;> rfl

/-- With fuel at least the nesting depth, the bounded `isSpeculatable` returns,
and returns the verdict of `isSpeculatable`. -/
theorem isSpeculatableFuel_eq :
    ∀ op : Operation, ∀ fuel : Nat, nestingDepth op ≤ fuel →
      isSpeculatableFuel fuel op = some (isSpeculatable op) := by
  refine Operation.nested_induction ?_
  intro op ih fuel hfuel
  cases fuel with
  | zero =>
    obtain ⟨m, t, s, regions⟩ := op
    have : nestingDepthRegions regions + 1 ≤ 0 := hfuel
    omega
  | succ n =>
    have hloop : loopRegions (isSpeculatableFuel n) op.getRegions =
        some (isSpeculatableRegions op.getRegions) := by
      rw [isSpeculatableRegions_eq_all]
      apply loopRegions_eq
      intro region hregion c hc
      apply ih region hregion c hc
      have := nestingDepth_lt_of_child op region hregion c hc
      omega
    rw [isSpeculatable_eq, isSpeculatableFuel, hloop]
    rcases op.conditionallySpeculatable with _ | c
    · rfl
    · cases c <;> rfl

theorem mem_of_mem_loopOpsCalls (callee : Operation → Bool) (c : Operation)
    (region : List Operation) (hc : c ∈ loopOpsCalls callee region) : c ∈ region := by
  induction region with
  | nil => cases hc
  | cons op rest ih =>
    rw [loopOpsCalls, List.mem_cons] at hc
    rcases hc with rfl | hc
    · exact List.mem_cons_self _ _
    · split at hc
      · cases hc
      · exact List.mem_cons_of_mem _ (ih hc)

/-- Every operation the two loops call the callee on is directly contained in
one of the regions. -/
theorem mem_of_mem_loopRegionsCalls (callee : Operation → Bool) (c : Operation)
    (regions : List (List Operation)) (hc : c ∈ loopRegionsCalls callee regions) :
    ∃ region ∈ regions, c ∈ region := by
  induction regions with
  | nil => cases hc
  | cons region rest ih =>
    rw [loopRegionsCalls, List.mem_append] at hc
    rcases hc with hc | hc
    · exact ⟨region, List.mem_cons_self _ _, mem_of_mem_loopOpsCalls callee c region hc⟩
    · split at hc
      · cases hc
      · obtain ⟨r, hr, hcr⟩ := ih hc
        exact ⟨r, List.mem_cons_of_mem _ hr, hcr⟩

theorem mem_regions_of_mem_isMemoryEffectFreeCalls (op c : Operation)
    (hc : c ∈ isMemoryEffectFreeCalls op) : ∃ region ∈ op.getRegions, c ∈ region := by
  unfold isMemoryEffectFreeCalls at hc
  split at hc
  · split at hc
    · cases hc
    · split at hc
      · cases hc
      · exact mem_of_mem_loopRegionsCalls _ c _ hc
  · split at hc
    · cases hc
    · exact mem_of_mem_loopRegionsCalls _ c _ hc

theorem mem_regions_of_mem_isSpeculatableCalls (op c : Operation)
    (hc : c ∈ isSpeculatableCalls op) : ∃ region ∈ op.getRegions, c ∈ region := by
  unfold isSpeculatableCalls at hc
  split at hc
  · cases hc
  · exact mem_of_mem_loopRegionsCalls _ c _ hc
  · cases hc
  · cases hc

/-- C14: both predicates are total on finite operation trees.  Run with a bound
on the recursion depth, each of them returns a boolean as soon as the bound
reaches the nesting depth of the tree, for every combination of interface,
trait and classification; and every recursive call made by an invocation on
`op` is on an operation nested inside `op`, of strictly smaller nesting
depth. -/
theorem predicates_total (op : Operation) :
    (∀ fuel : Nat, nestingDepth op ≤ fuel →
      isMemoryEffectFreeFuel fuel op = some (isMemoryEffectFree op)) ∧
    (∀ fuel : Nat, nestingDepth op ≤ fuel →
      isSpeculatableFuel fuel op = some (isSpeculatable op)) ∧
    (∀ c ∈ isMemoryEffectFreeCalls op,
      c ∈ nestedOps op ∧ nestingDepth c < nestingDepth op) ∧
    (∀ c ∈ isSpeculatableCalls op,
      c ∈ nestedOps op ∧ nestingDepth c < nestingDepth op) := by
  refine ⟨isMemoryEffectFreeFuel_eq op, isSpeculatableFuel_eq op, ?_, ?_⟩
  · intro c hc
    obtain ⟨region, hregion, hmem⟩ := mem_regions_of_mem_isMemoryEffectFreeCalls op c hc
    exact ⟨(mem_nestedOps c op).mpr ⟨region, hregion, c, hmem, Or.inl rfl⟩,
      nestingDepth_lt_of_child op region hregion c hmem⟩
  · intro c hc
    obtain ⟨region, hregion, hmem⟩ := mem_regions_of_mem_isSpeculatableCalls op c hc
    exact ⟨(mem_nestedOps c op).mpr ⟨region, hregion, c, hmem, Or.inl rfl⟩,
      nestingDepth_lt_of_child op region hregion c hmem⟩

/-- Witness of `predicates_total` on a container of depth three whose region
holds a wrapper around a pure leaf, then a store: three levels of recursion
are enough for both predicates, and the call on the store is a call on a
nested, less deep operation. -/
theorem predicates_total_witness :
    nestingDepth (containerOp [wrapperOp [pureOp], storeOp]) ≤ 3 ∧
    isMemoryEffectFreeFuel 3 (containerOp [wrapperOp [pureOp], storeOp]) =
      some (isMemoryEffectFree (containerOp [wrapperOp [pureOp], storeOp])) ∧
    isSpeculatableFuel 3 (containerOp [wrapperOp [pureOp], storeOp]) =
      some (isSpeculatable (containerOp [wrapperOp [pureOp], storeOp])) ∧
    (storeOp ∈ nestedOps (containerOp [wrapperOp [pureOp], storeOp]) ∧
      nestingDepth storeOp < nestingDepth (containerOp [wrapperOp [pureOp], storeOp])) ∧
    (storeOp ∈ nestedOps (containerOp [wrapperOp [pureOp], storeOp]) ∧
      nestingDepth storeOp < nestingDepth (containerOp [wrapperOp [pureOp], storeOp])) :=
  ⟨by decide,
   (predicates_total (containerOp [wrapperOp [pureOp], storeOp])).1 3 (by decide),
   (predicates_total (containerOp [wrapperOp [pureOp], storeOp])).2.1 3 (by decide),
   (predicates_total (containerOp [wrapperOp [pureOp], storeOp])).2.2.1 storeOp
     (show storeOp ∈ [wrapperOp [pureOp], storeOp] from
       List.mem_cons_of_mem _ (List.mem_singleton.mpr rfl)),
   (predicates_total (containerOp [wrapperOp [pureOp], storeOp])).2.2.2 storeOp
     (show storeOp ∈ [wrapperOp [pureOp], storeOp] from
       List.mem_cons_of_mem _ (List.mem_singleton.mpr rfl))⟩

/-! ## Independence of the visitation order -/

theorem all_regions_of_perm (f : Operation → Bool) {rs rs2 : List (List Operation)}
    (h : rs.Perm rs2) :
    rs.all (fun region => region.all f) = rs2.all (fun region => region.all f) := by
  rw [Bool.eq_iff_iff, List.all_eq_true, List.all_eq_true]
  exact ⟨fun hall r hr => hall r (h.mem_iff.mpr hr), fun hall r hr => hall r (h.mem_iff.mp hr)⟩

theorem all_ops_of_perm (f : Operation → Bool) {r r2 : List Operation} (h : r.Perm r2) :
    r.all f = r2.all f := by
  rw [Bool.eq_iff_iff, List.all_eq_true, List.all_eq_true]
  exact ⟨fun hall c hc => hall c (h.mem_iff.mpr hc), fun hall c hc => hall c (h.mem_iff.mp hc)⟩

/-- The verdict of `isMemoryEffectFree` depends on the regions only through the
conjunction of the nested verdicts. -/
theorem isMemoryEffectFree_congr (m : Option Bool) (t : Bool)
    (s : Option Speculation.Speculatability) (rs rs2 : List (List Operation))
    (h : rs.all (fun region => region.all (fun c => isMemoryEffectFree c)) =
      rs2.all (fun region => region.all (fun c => isMemoryEffectFree c))) :
    isMemoryEffectFree ⟨m, t, s, rs⟩ = isMemoryEffectFree ⟨m, t, s, rs2⟩ := by
  rw [isMemoryEffectFree_eq, isMemoryEffectFree_eq]
  simp only [isMemoryEffectFreeRegions_eq_all, h]

/-- The verdict of `isSpeculatable` depends on the regions only through the
conjunction of the nested verdicts. -/
theorem isSpeculatable_congr (m : Option Bool) (t : Bool)
    (s : Option Speculation.Speculatability) (rs rs2 : List (List Operation))
    (h : rs.all (fun region => region.all (fun c => isSpeculatable c)) =
      rs2.all (fun region => region.all (fun c => isSpeculatable c))) :
    isSpeculatable ⟨m, t, s, rs⟩ = isSpeculatable ⟨m, t, s, rs2⟩ := by
  rw [isSpeculatable_eq, isSpeculatable_eq]
  simp only [isSpeculatableRegions_eq_all, h]

/-- C15: the verdicts do not depend on the visitation order: permuting the
regions of any operation, or the operations inside any region, at any depth
and any number of times, leaves both `isMemoryEffectFree` and `isSpeculatable`
of the root unchanged. -/
theorem verdict_of_reordered (a b : Operation) (h : Reordered a b) :
    isMemoryEffectFree a = isMemoryEffectFree b ∧
    isSpeculatable a = isSpeculatable b := by
  induction h with
  | same op => exact ⟨rfl, rfl⟩
  | step _ _ ih1 ih2 => exact ⟨ih1.1.trans ih2.1, ih1.2.trans ih2.2⟩
  | regions m t s hp =>
    exact ⟨isMemoryEffectFree_congr m t s _ _ (all_regions_of_perm _ hp),
      isSpeculatable_congr m t s _ _ (all_regions_of_perm _ hp)⟩
  | ops m t s before after hp =>
    refine ⟨isMemoryEffectFree_congr m t s _ _ ?_, isSpeculatable_congr m t s _ _ ?_⟩
    · simp only [List.all_append, List.all_cons, all_ops_of_perm _ hp]
    · simp only [List.all_append, List.all_cons, all_ops_of_perm _ hp]
  | nested m t s before left right after _ ih =>
    refine ⟨isMemoryEffectFree_congr m t s _ _ ?_, isSpeculatable_congr m t s _ _ ?_⟩
    · simp only [List.all_append, List.all_cons, ih.1]
    · simp only [List.all_append, List.all_cons, ih.2]

/-- Witness of `verdict_of_reordered`: a container whose region holds a pure
leaf then a store, and the same container with the two swapped; the loops stop
at different places yet both verdicts agree. -/
theorem verdict_of_reordered_witness :
    Reordered (containerOp [pureOp, storeOp]) (containerOp [storeOp, pureOp]) ∧
    isMemoryEffectFree (containerOp [pureOp, storeOp]) =
      isMemoryEffectFree (containerOp [storeOp, pureOp]) ∧
    isSpeculatable (containerOp [pureOp, storeOp]) =
      isSpeculatable (containerOp [storeOp, pureOp]) :=
  ⟨Reordered.ops (some true) true
      (some Speculation.Speculatability.RecursivelySpeculatable) [] []
      (List.Perm.swap storeOp pureOp []),
   verdict_of_reordered (containerOp [pureOp, storeOp]) (containerOp [storeOp, pureOp])
     (Reordered.ops (some true) true
       (some Speculation.Speculatability.RecursivelySpeculatable) [] []
       (List.Perm.swap storeOp pureOp []))⟩

/-! ## Exact characterisations -/

/-- A property holds of everything reached from `op` through ancestors
satisfying `p`, when `op` satisfies `p`, exactly when it holds of every
operation directly contained in `op` and of everything reached from it. -/
theorem forall_mem_nestedOpsThrough (p : Operation → Bool) (Q : Operation → Prop)
    (op : Operation) (hp : p op = true) :
    (∀ e ∈ nestedOpsThrough p op, Q e) ↔
      ∀ region ∈ op.getRegions, ∀ c ∈ region,
        ∀ e ∈ c :: nestedOpsThrough p c, Q e := by
  constructor
  · intro h region hregion c hc e he
    apply h e
    rw [mem_nestedOpsThrough]
    exact ⟨hp, region, hregion, c, hc, List.mem_cons.mp he⟩
  · intro h e he
    rw [mem_nestedOpsThrough] at he
    obtain ⟨_, region, hregion, c, hc, hec⟩ := he
    exact h region hregion c hc e (List.mem_cons.mpr hec)

/-- Nothing is reached from an operation that does not satisfy `p`. -/
theorem not_mem_nestedOpsThrough (p : Operation → Bool) (op e : Operation)
    (hp : p op = false) : e ∉ nestedOpsThrough p op := by
  intro he
  rw [mem_nestedOpsThrough, hp] at he
  exact absurd he.1 (by simp)

/-- C16: `isMemoryEffectFree op` is `true` if and only if every operation that
is `op` itself or is reachable from `op` through a nesting path whose proper
ancestors all have the recursive memory effects trait is locally acceptable.
Operations beneath an ancestor lacking the trait are not among them. -/
theorem isMemoryEffectFree_iff_locallyAcceptable :
    ∀ op : Operation,
      isMemoryEffectFree op = true ↔
        ∀ e ∈ op :: nestedOpsThrough (fun o => o.hasRecursiveMemoryEffects) op,
          locallyAcceptable e = true := by
  refine Operation.nested_induction ?_
  intro op ih
  rw [List.forall_mem_cons]
  cases ht : op.hasRecursiveMemoryEffects
  · have hnone : ∀ e ∈ nestedOpsThrough (fun o => o.hasRecursiveMemoryEffects) op,
        locallyAcceptable e = true :=
      fun e he => absurd he (not_mem_nestedOpsThrough _ op e ht)
    rw [isMemoryEffectFree_eq]
    rcases hm : op.memInterface with _ | b
    · simp [locallyAcceptable, hm, ht]
    · cases b
      · simp [locallyAcceptable, hm]
      · simp only [locallyAcceptable, hm, ht]
        simpa using hnone
  · have hreach := forall_mem_nestedOpsThrough
      (fun o => o.hasRecursiveMemoryEffects) (fun e => locallyAcceptable e = true) op ht
    have hchildren :
        (∀ region ∈ op.getRegions, ∀ c ∈ region, isMemoryEffectFree c = true) ↔
          ∀ e ∈ nestedOpsThrough (fun o => o.hasRecursiveMemoryEffects) op,
            locallyAcceptable e = true := by
      rw [hreach]
      constructor
      · intro h region hregion c hc
        exact (ih region hregion c hc).mp (h region hregion c hc)
      · intro h region hregion c hc
        exact (ih region hregion c hc).mpr (h region hregion c hc)
    rcases hm : op.memInterface with _ | b
    · rw [isMemoryEffectFree_recursive op ht (Or.inl hm), hchildren]
      simp [locallyAcceptable, hm, ht]
    · cases b
      · rw [isMemoryEffectFree_eq]
        simp [locallyAcceptable, hm]
      · rw [isMemoryEffectFree_recursive op ht (Or.inr hm), hchildren]
        simp [locallyAcceptable, hm]

/-- C17: `isSpeculatable op` is `true` if and only if every operation that is
`op` itself or is reachable from `op` through a nesting path whose proper
ancestors are all classified `RecursivelySpeculatable` exposes the
speculatability capability with a classification other than
`NotSpeculatable`.  Operations beneath a `Speculatable` ancestor are not among
them. -/
theorem isSpeculatable_iff_declaresSpeculatable :
    ∀ op : Operation,
      isSpeculatable op = true ↔
        ∀ e ∈ op :: nestedOpsThrough isRecursivelySpeculatable op,
          declaresSpeculatable e = true := by
  refine Operation.nested_induction ?_
  intro op ih
  rw [List.forall_mem_cons]
  rcases hs : op.conditionallySpeculatable with _ | cls
  · rw [isSpeculatable_eq]
    simp [declaresSpeculatable, hs]
  · cases cls
    · -- Speculatable: nothing is reached
      have hp : isRecursivelySpeculatable op = false := by
        simp [isRecursivelySpeculatable, hs]
      have hnone : ∀ e ∈ nestedOpsThrough isRecursivelySpeculatable op,
          declaresSpeculatable e = true :=
        fun e he => absurd he (not_mem_nestedOpsThrough _ op e hp)
      rw [isSpeculatable_eq]
      simp only [declaresSpeculatable, hs]
      simpa using hnone
    · rw [isSpeculatable_eq]
      simp [declaresSpeculatable, hs]
    · have hp : isRecursivelySpeculatable op = true := by
        simp [isRecursivelySpeculatable, hs]
      rw [isSpeculatable_recursive op hs,
        forall_mem_nestedOpsThrough isRecursivelySpeculatable
          (fun e => declaresSpeculatable e = true) op hp]
      simp only [declaresSpeculatable, hs, true_and]
      constructor
      · intro h region hregion c hc
        exact (ih region hregion c hc).mp (h region hregion c hc)
      · intro h region hregion c hc
        exact (ih region hregion c hc).mpr (h region hregion c hc)

/-- C18: an operation that exposes no effect interface, has the recursive memory
effects trait and holds no nested operation (no region, or only empty regions)
is memory-effect-free. -/
theorem isMemoryEffectFree_noInterface_recursive_empty (op : Operation)
    (hi : op.memInterface = none)
    (ht : op.hasRecursiveMemoryEffects = true)
    (hempty : ∀ region ∈ op.getRegions, region = []) :
    isMemoryEffectFree op = true := by
  rw [isMemoryEffectFree_recursive op ht (Or.inl hi)]
  intro region hregion c hmem
  rw [hempty region hregion] at hmem
  cases hmem

/-- Witness of `isMemoryEffectFree_noInterface_recursive_empty`: one operation
with no region and one with a single empty region, neither exposing the effect
interface. -/
theorem isMemoryEffectFree_noInterface_recursive_empty_witness :
    isMemoryEffectFree (Operation.mk none true none []) = true ∧
    isMemoryEffectFree (wrapperOp []) = true :=
  ⟨isMemoryEffectFree_noInterface_recursive_empty (Operation.mk none true none []) rfl rfl
     (by intro region hregion; cases hregion),
   isMemoryEffectFree_noInterface_recursive_empty (wrapperOp []) rfl rfl
     (by
       intro region hregion
       exact List.mem_singleton.mp hregion)⟩

end mlir
